import Mathlib

/-!
Verification of the ARIMA stock-forecasting core.

This file gives a shallow embedding, over `List ℚ`, of the numeric core of
the repository: stationarity preparation (`data_preparation.py`), ARIMA
grid-search selection and inverse-differencing rescaling (`arima_modeling.py`),
and threshold-based path weighting (`main.py` / `fix_forecasts.py`).

External numerical routines (the Augmented Dickey-Fuller test from
statsmodels, and the per-candidate ARIMA fit) are modelled as oracle
parameters: an ADF oracle `pval : List ℚ → ℚ` returning a p-value, and a fit
oracle `fit : Nat → Nat → Option ℚ` returning the AIC of a converged fit for
order (p, 0, q), or `none` when the candidate fails to converge or raises.
Floating-point values are modelled as rationals; dates are modelled as
integers (days, with day 0 a Monday, so `d % 7` is Python's `weekday()`).
-/

/-! ## data_preparation.py -/

/-- `difference_series` (data_preparation.py line 37-44): pandas
`series.diff().dropna()`, i.e. the list of consecutive differences.
On a purely numeric series this coincides with `np.diff`. -/
def difference_series (s : List ℚ) : List ℚ :=
  List.zipWith (fun a b => b - a) s s.tail

/-- `np.diff` as used in the differencing loop of `prepare_stationary_data`
(data_preparation.py line 76): consecutive differences. -/
def npDiff (s : List ℚ) : List ℚ :=
  List.zipWith (fun a b => b - a) s s.tail

/-- `check_stationarity` (data_preparation.py lines 24-35): runs the ADF test
(oracle `pval`) and returns `(p_value <= 0.05, p_value)`. -/
def check_stationarity (pval : List ℚ → ℚ) (series : List ℚ) : Bool × ℚ :=
  (decide (pval series ≤ 1/20), pval series)

/-- The `while not is_stationary and diff_order < 3` loop of
`prepare_stationary_data` (data_preparation.py lines 64-78), with the
remaining iteration budget `3 - diff_order` made explicit as fuel.
Returns `(current_data, is_stationary, diff_order)` at loop exit. -/
def adfLoop (pval : List ℚ → ℚ) : Nat → List ℚ → Nat → List ℚ × Bool × Nat
  | 0, current, diffOrder => (current, false, diffOrder)
  | fuel + 1, current, diffOrder =>
    if pval current < 1/20 then (current, true, diffOrder)
    else adfLoop pval fuel (npDiff current) (diffOrder + 1)

/-- Per-series core of `prepare_stationary_data` (data_preparation.py lines
56-85): run the differencing loop starting from the raw data with
`diff_order = 0`; if the loop exits non-stationary, apply `difference_series`
once more (line 83) and return that data.  The locals
`(current_data, is_stationary, diff_order)` are returned so the outcome is
observable. -/
def prepare_stationary_data (pval : List ℚ → ℚ) (data : List ℚ) :
    List ℚ × Bool × Nat :=
  let r := adfLoop pval 3 data 0
  if r.2.1 then r else (difference_series r.1, r.2.1, r.2.2)

/-! ## arima_modeling.py : grid search -/

/-- `p_range = range(0, 6)` (arima_modeling.py line 19). -/
def p_range : List Nat := List.range 6

/-- `q_range = range(0, 6)` (arima_modeling.py line 20). -/
def q_range : List Nat := List.range 6

/-- The candidate scan order of the grid search: `p` outer loop, `q` inner
loop (arima_modeling.py lines 27-28). -/
def scanOrder : List (Nat × Nat) :=
  p_range.flatMap (fun p => q_range.map (fun q => (p, q)))

/-- One iteration of the grid-search loop body (arima_modeling.py lines
29-41): query the fit oracle for order `(p, 0, q)`; a failed fit (`none`) is
skipped and leaves the accumulator unchanged; a converged fit replaces the
best-so-far exactly when its AIC is strictly smaller (`model_fit.aic <
best_aic`, with `best_aic` initially infinite, i.e. accumulator `none`).
The accumulator holds `(best_order, best_aic)` with `best_order = (p, 0, q)`. -/
def gridStep (fit : Nat → Nat → Option ℚ)
    (best : Option ((Nat × Nat × Nat) × ℚ)) (pq : Nat × Nat) :
    Option ((Nat × Nat × Nat) × ℚ) :=
  match fit pq.1 pq.2 with
  | none => best
  | some aic =>
    match best with
    | none => some ((pq.1, 0, pq.2), aic)
    | some b => if aic < b.2 then some ((pq.1, 0, pq.2), aic) else best

/-- `fit_arima` (arima_modeling.py lines 7-54): scan all 36 candidates in
order, keeping the strict-minimum-AIC converged fit; `none` models the
`(None, None, None)` return when no candidate converges (lines 43-45). -/
def fit_arima (fit : Nat → Nat → Option ℚ) : Option ((Nat × Nat × Nat) × ℚ) :=
  scanOrder.foldl (gridStep fit) none

/-! ## arima_modeling.py : rescaling and forecast dates -/

/-- Running (inclusive) cumulative sum with accumulator, the computation
performed by `np.cumsum`. -/
def cumsumFrom (acc : ℚ) : List ℚ → List ℚ
  | [] => []
  | x :: xs => (acc + x) :: cumsumFrom (acc + x) xs

/-- `np.cumsum` on a one-dimensional array. -/
def npCumsum (l : List ℚ) : List ℚ := cumsumFrom 0 l

/-- The forecast branch of `transform_to_original_scale`
(arima_modeling.py line 109): `np.cumsum(forecast) + last_original_value`. -/
def transform_forecast (forecast : List ℚ) (lastOriginalValue : ℚ) : List ℚ :=
  (npCumsum forecast).map (fun x => x + lastOriginalValue)

/-- The simulated-paths branch of `transform_to_original_scale`
(arima_modeling.py line 112): `np.cumsum(simulated_paths, axis=1) +
last_original_value`, i.e. the per-row cumulative sum plus the anchor. -/
def transform_paths (paths : List (List ℚ)) (lastOriginalValue : ℚ) :
    List (List ℚ) :=
  paths.map (fun row => (npCumsum row).map (fun x => x + lastOriginalValue))

/-- Python's `date.weekday()` on integer day numbers, with day 0 chosen to be
a Monday: Monday = 0, ..., Saturday = 5, Sunday = 6. -/
def weekday (d : Int) : Int := d % 7

/-- `pandas.tseries.offsets.BDay(1)` addition: step to the next weekday
strictly after `d` (Friday and Saturday and Sunday all step to Monday). -/
def nextBDay (d : Int) : Int :=
  if weekday d = 4 then d + 3
  else if weekday d = 5 then d + 2
  else d + 1

/-- The holiday calendar window of `transform_to_original_scale`
(arima_modeling.py lines 93-94): the US federal holidays (abstract list
`holidays`) restricted to `[last_date, last_date + BDay(steps + 10)]`. -/
def holidayWindow (holidays : List Int) (lastDate : Int) (steps : Nat) :
    List Int :=
  holidays.filter
    (fun h => decide (lastDate ≤ h) && decide (h ≤ nextBDay^[steps + 10] lastDate))

/-- Advance along the business-day chain past any holidays: the date-loop of
`transform_to_original_scale` (lines 100-104) appends `current_date` only if
it is a weekday and not a holiday, and always advances by `BDay(1)`; since
`BDay` arithmetic only produces weekdays, the skipped candidates are exactly
the holidays on the chain.  Terminates because the chain is strictly
increasing and the holiday list is finite. -/
def skipHol (holidays : List Int) (d : Int) : Int :=
  if d ∈ holidays then skipHol holidays (nextBDay d) else d
termination_by (holidays.foldr max 0 + 1 - d).toNat
decreasing_by
  rename_i hmem
  have h1 : d ≤ holidays.foldr max 0 := by
    induction holidays with
    | nil => cases hmem
    | cons x xs ih =>
      rcases List.mem_cons.mp hmem with h | h
      · subst h; exact le_max_of_le_left le_rfl
      · exact le_trans (ih h) (le_max_of_le_right le_rfl)
  have h2 : d + 1 ≤ nextBDay d := by
    unfold nextBDay; split <;> [omega; (split <;> omega)]
  omega

/-- The date-collection loop of `transform_to_original_scale`
(arima_modeling.py lines 97-104): starting from `current_date = last_date +
BDay(1)`, collect `steps` dates, each time skipping holidays along the
business-day chain. -/
def genDates (holidays : List Int) : Nat → Int → List Int
  | 0, _ => []
  | n + 1, d =>
    let e := skipHol holidays (nextBDay d)
    e :: genDates holidays n e

/-- The forecast-dates computation of `transform_to_original_scale`
(arima_modeling.py lines 88-106): build the windowed holiday calendar and
run the date loop. -/
def forecast_dates (holidays : List Int) (steps : Nat) (lastDate : Int) :
    List Int :=
  genDates (holidayWindow holidays lastDate steps) steps lastDate

/-- `transform_to_original_scale` (arima_modeling.py lines 78-114): returns
the rescaled forecast, the rescaled simulated paths, and the forecast dates. -/
def transform_to_original_scale (forecast : List ℚ) (paths : List (List ℚ))
    (lastOriginalValue : ℚ) (lastDate : Int) (holidays : List Int) :
    List ℚ × List (List ℚ) × List Int :=
  (transform_forecast forecast lastOriginalValue,
   transform_paths paths lastOriginalValue,
   forecast_dates holidays forecast.length lastDate)

/-! ## main.py / fix_forecasts.py : threshold weighting -/

/-- `np.average(arr, axis=0)` on a list of equal-length rows: the arithmetic
mean of each column, with the number of columns read off the first row. -/
def npAverageAxis0 (rows : List (List ℚ)) : List ℚ :=
  (List.range (rows.headD []).length).map
    (fun j => (rows.map (fun p => p.getD j 0)).sum / (rows.length : ℚ))

/-- NumPy boolean-mask row selection `arr[mask]`: keep the rows whose mask
entry is `true`. -/
def maskSelect (paths : List (List ℚ)) (mask : List Bool) : List (List ℚ) :=
  ((paths.zip mask).filter (fun pm => pm.2)).map (fun pm => pm.1)

/-- `calculate_threshold_weighted_forecast` (main.py lines 25-48, identical
copy in fix_forecasts.py lines 10-33): mask the paths whose weight meets the
threshold; if no path qualifies, warn and fall back to the all-ones mask;
return the per-step average of the selected rows. -/
def calculate_threshold_weighted_forecast (simulated_paths : List (List ℚ))
    (weights : List ℚ) (threshold : ℚ) : List ℚ :=
  let mask := weights.map (fun w => decide (threshold ≤ w))
  let mask' := if mask.any id then mask else weights.map (fun _ => true)
  npAverageAxis0 (maskSelect simulated_paths mask')

/-- The condition under which `calculate_threshold_weighted_forecast` prints
its fallback warning (main.py lines 38-40): no weight meets the threshold. -/
def threshold_fallback_warning (weights : List ℚ) (threshold : ℚ) : Bool :=
  !(weights.map (fun w => decide (threshold ≤ w))).any id

/-- Specification-side description of the selected subset, following the
spec's words: exactly those paths whose paired score is greater than or
equal to the threshold (to be compared with the mask-based code path). -/
def selectedPaths (paths : List (List ℚ)) (weights : List ℚ) (threshold : ℚ) :
    List (List ℚ) :=
  ((paths.zip weights).filter (fun pw => decide (threshold ≤ pw.2))).map Prod.fst

/-- The two weighted-forecast computations of `main` (main.py lines 143-160)
together with the recorded threshold scalar (lines 187-189): the
`threshold_weighted_forecast` field is computed with the literal threshold 2,
the `chatgpt_weighted_forecast` field with the user-entered threshold, which
is itself stored as `chatgpt_threshold`. -/
def main_weighted_outputs (paths : List (List ℚ)) (probabilities : List ℚ)
    (chatgptThreshold : ℚ) : List ℚ × List ℚ × ℚ :=
  (calculate_threshold_weighted_forecast paths probabilities 2,
   calculate_threshold_weighted_forecast paths probabilities chatgptThreshold,
   chatgptThreshold)

/-- The forecast-record fields consumed and produced by
`recalculate_weighted_forecasts` (fix_forecasts.py lines 35-90). -/
structure ForecastsData where
  simulated_paths : List (List ℚ)
  threshold_weighted_forecast : List ℚ
  chatgpt_weighted_forecast : List ℚ
  chatgpt_threshold : Option ℚ

/-- `recalculate_weighted_forecasts` (fix_forecasts.py lines 35-90): skip
when there are no simulated paths; otherwise recompute the
`threshold_weighted_forecast` field with the literal threshold 4 (line 63)
and the `chatgpt_weighted_forecast` field with the stored
`chatgpt_threshold`, defaulting to 6 when absent (line 59). -/
def recalculate_weighted_forecasts (fd : ForecastsData)
    (probabilities : List ℚ) : ForecastsData :=
  if fd.simulated_paths.isEmpty then fd
  else
    let newThreshold := fd.chatgpt_threshold.getD 6
    { fd with
      threshold_weighted_forecast :=
        calculate_threshold_weighted_forecast fd.simulated_paths probabilities 4,
      chatgpt_weighted_forecast :=
        calculate_threshold_weighted_forecast fd.simulated_paths probabilities
          newThreshold }

/-! ## Helper lemmas : cumulative sums -/

lemma cumsumFrom_length (l : List ℚ) : ∀ acc : ℚ, (cumsumFrom acc l).length = l.length := by
  induction l with
  | nil => intro acc; rfl
  | cons x xs ih => intro acc; simp [cumsumFrom, ih]

lemma cumsumFrom_getElem (l : List ℚ) :
    ∀ (acc : ℚ) (i : Nat) (h : i < (cumsumFrom acc l).length),
      (cumsumFrom acc l)[i] = acc + (l.take (i + 1)).sum := by
  induction l with
  | nil => intro acc i h; simp [cumsumFrom] at h
  | cons x xs ih =>
    intro acc i h
    cases i with
    | zero => simp [cumsumFrom]
    | succ i =>
      simp only [cumsumFrom, List.getElem_cons_succ, List.take_succ_cons, List.sum_cons]
      rw [ih (acc + x) i (by simpa [cumsumFrom] using h)]
      ring

lemma transform_forecast_length (l : List ℚ) (anchor : ℚ) :
    (transform_forecast l anchor).length = l.length := by
  simp [transform_forecast, npCumsum, cumsumFrom_length]

lemma transform_forecast_getD (l : List ℚ) (anchor : ℚ) (i : Nat) (hi : i < l.length) :
    (transform_forecast l anchor).getD i 0 = anchor + (l.take (i + 1)).sum := by
  have hlen : i < (transform_forecast l anchor).length := by
    rwa [transform_forecast_length]
  rw [List.getD_eq_getElem _ _ hlen]
  unfold transform_forecast npCumsum
  rw [List.getElem_map, cumsumFrom_getElem]
  ring

lemma transform_paths_getD (paths : List (List ℚ)) (anchor : ℚ) (j : Nat)
    (hj : j < paths.length) :
    (transform_paths paths anchor).getD j [] =
      transform_forecast (paths.getD j []) anchor := by
  have hlen : j < (transform_paths paths anchor).length := by
    simpa [transform_paths] using hj
  rw [List.getD_eq_getElem _ _ hlen, List.getD_eq_getElem _ _ hj]
  simp [transform_paths, transform_forecast]

/-- Claim C2: for every differenced forecast sequence and anchor value, the
scale restorer returns a sequence of the same length in which the value at
each step equals the anchor plus the cumulative sum of the differenced values
up to and including that step; the same per-row rule holds for every row of
the simulated-paths matrix; and with anchor 100 and differenced forecast
[1, -1/2, 2] it yields [101, 201/2, 205/2]. -/
theorem c2_scale_restorer (forecast : List ℚ) (anchor : ℚ)
    (paths : List (List ℚ)) :
    (transform_forecast forecast anchor).length = forecast.length ∧
    (∀ i, i < forecast.length →
      (transform_forecast forecast anchor).getD i 0 =
        anchor + (forecast.take (i + 1)).sum) ∧
    (transform_paths paths anchor).length = paths.length ∧
    (∀ j, j < paths.length → ∀ i, i < (paths.getD j []).length →
      ((transform_paths paths anchor).getD j []).getD i 0 =
        anchor + ((paths.getD j []).take (i + 1)).sum) ∧
    transform_forecast [1, -1/2, 2] 100 = [101, 201/2, 205/2] := by
  refine ⟨transform_forecast_length forecast anchor,
    fun i hi => transform_forecast_getD forecast anchor i hi,
    by simp [transform_paths], ?_,
    by norm_num [transform_forecast, npCumsum, cumsumFrom]⟩
  intro j hj i hi
  rw [transform_paths_getD paths anchor j hj]
  exact transform_forecast_getD _ anchor i hi

/-- Closed witness for C2 at the spec's own example. -/
theorem c2_scale_restorer_witness :
    (transform_forecast [1, -1/2, 2] 100).getD 1 0 =
      100 + (([1, -1/2, 2] : List ℚ).take 2).sum ∧
    ((transform_paths [[1, -1/2, 2]] 100).getD 0 []).getD 2 0 =
      100 + ((([[1, -1/2, 2]] : List (List ℚ)).getD 0 []).take 3).sum :=
  ⟨(c2_scale_restorer [1, -1/2, 2] 100 [[1, -1/2, 2]]).2.1 1 (by decide),
   (c2_scale_restorer [1, -1/2, 2] 100 [[1, -1/2, 2]]).2.2.2.1 0 (by decide)
     2 (by decide)⟩

/-! ## Helper lemmas : threshold weighting -/

lemma maskSelect_map (paths : List (List ℚ)) (weights : List ℚ) (p : ℚ → Bool) :
    maskSelect paths (weights.map p) =
      ((paths.zip weights).filter (fun pw => p pw.2)).map Prod.fst := by
  induction paths generalizing weights with
  | nil => simp [maskSelect]
  | cons x xs ih =>
    cases weights with
    | nil => simp [maskSelect]
    | cons w ws =>
      simp only [List.map_cons, List.zip_cons_cons, maskSelect,
        List.filter_cons] at ih ⊢
      by_cases h : p w <;> simp [h, ih, maskSelect]

lemma npAverageAxis0_eq (rows : List (List ℚ)) (steps : Nat)
    (hne : rows ≠ []) (hrows : ∀ r ∈ rows, r.length = steps) :
    npAverageAxis0 rows = (List.range steps).map
      (fun j => (rows.map (fun p => p.getD j 0)).sum / (rows.length : ℚ)) := by
  obtain ⟨r, rs, rfl⟩ := List.exists_cons_of_ne_nil hne
  unfold npAverageAxis0
  rw [List.headD_cons, hrows r (List.mem_cons_self r rs)]

lemma selectedPaths_sub (paths : List (List ℚ)) (weights : List ℚ)
    (threshold : ℚ) :
    ∀ r ∈ selectedPaths paths weights threshold, r ∈ paths := by
  intro r hr
  obtain ⟨pw, hpw, rfl⟩ := List.mem_map.mp hr
  exact (List.of_mem_zip (List.mem_filter.mp hpw).1).1

lemma selectedPaths_ne_nil (paths : List (List ℚ)) (weights : List ℚ)
    (threshold : ℚ) (hlen : paths.length = weights.length)
    (hex : ∃ w ∈ weights, threshold ≤ w) :
    selectedPaths paths weights threshold ≠ [] := by
  rcases hex with ⟨w, hw, hle⟩
  obtain ⟨⟨i, hi⟩, rfl⟩ := List.mem_iff_get.mp hw
  have hiz : i < (paths.zip weights).length := by
    simp only [List.length_zip]
    omega
  have hmem : (paths.zip weights).get ⟨i, hiz⟩ ∈
      (paths.zip weights).filter (fun pw => decide (threshold ≤ pw.2)) := by
    apply List.mem_filter.mpr
    refine ⟨List.get_mem _ _ hiz, ?_⟩
    simp only [List.get_eq_getElem, List.getElem_zip, decide_eq_true_eq]
    exact hle
  apply List.ne_nil_of_mem (a := ((paths.zip weights).get ⟨i, hiz⟩).1)
  exact List.mem_map_of_mem Prod.fst hmem

/-- Claim C3: when at least one score meets the threshold, the threshold
weighting returns, for each step, the arithmetic mean over exactly those
paths whose score is greater than or equal to the threshold. -/
theorem c3_threshold_selection (paths : List (List ℚ)) (weights : List ℚ)
    (threshold : ℚ) (steps : Nat)
    (hlen : paths.length = weights.length)
    (hrows : ∀ row ∈ paths, row.length = steps)
    (hex : ∃ w ∈ weights, threshold ≤ w) :
    calculate_threshold_weighted_forecast paths weights threshold =
      (List.range steps).map (fun j =>
        ((selectedPaths paths weights threshold).map (fun p => p.getD j 0)).sum /
          ((selectedPaths paths weights threshold).length : ℚ)) := by
  have hany : (weights.map (fun w => decide (threshold ≤ w))).any id = true := by
    rcases hex with ⟨w, hw, hle⟩
    apply List.any_eq_true.mpr
    exact ⟨decide (threshold ≤ w), List.mem_map_of_mem _ hw, by simpa using hle⟩
  unfold calculate_threshold_weighted_forecast
  simp only [hany, if_true]
  rw [maskSelect_map]
  exact npAverageAxis0_eq _ steps
    (selectedPaths_ne_nil paths weights threshold hlen hex)
    (fun r hr => hrows r (selectedPaths_sub paths weights threshold r hr))

/-- Closed witness for C3 at the spec's own example: paths
[[10,10],[20,20],[30,30]] with scores [1,5,9] and threshold 5 yield [25,25]. -/
theorem c3_threshold_selection_witness :
    calculate_threshold_weighted_forecast [[10,10],[20,20],[30,30]] [1,5,9] 5 =
      [25, 25] := by
  have h := c3_threshold_selection [[10,10],[20,20],[30,30]] [1,5,9] 5 2
    (by rfl)
    (by
      intro r hr
      simp only [List.mem_cons, List.not_mem_nil, or_false] at hr
      rcases hr with rfl | rfl | rfl <;> rfl)
    ⟨5, by norm_num, le_refl 5⟩
  rw [h]
  norm_num [selectedPaths, List.filter_cons, List.range_succ]

lemma maskSelect_all_true (paths : List (List ℚ)) (weights : List ℚ)
    (hlen : paths.length = weights.length) :
    maskSelect paths (weights.map (fun _ => true)) = paths := by
  rw [maskSelect_map]
  simp only [List.filter_true]
  exact List.map_fst_zip paths weights (le_of_eq hlen)

/-- Claim C4: when no score meets the threshold, the threshold weighting does
not fail: the fallback warning condition holds and the result is the
per-step unweighted arithmetic mean over all paths. -/
theorem c4_threshold_fallback (paths : List (List ℚ)) (weights : List ℚ)
    (threshold : ℚ) (steps : Nat)
    (hlen : paths.length = weights.length)
    (hrows : ∀ row ∈ paths, row.length = steps)
    (hne : paths ≠ [])
    (hnone : ∀ w ∈ weights, w < threshold) :
    threshold_fallback_warning weights threshold = true ∧
    calculate_threshold_weighted_forecast paths weights threshold =
      npAverageAxis0 paths ∧
    npAverageAxis0 paths = (List.range steps).map
      (fun j => (paths.map (fun p => p.getD j 0)).sum / (paths.length : ℚ)) := by
  have hany : (weights.map (fun w => decide (threshold ≤ w))).any id = false := by
    apply List.any_eq_false.mpr
    intro b hb
    obtain ⟨w, hw, rfl⟩ := List.mem_map.mp hb
    simpa using not_le.mpr (hnone w hw)
  refine ⟨?_, ?_, npAverageAxis0_eq paths steps hne hrows⟩
  · unfold threshold_fallback_warning
    rw [hany]
    rfl
  · unfold calculate_threshold_weighted_forecast
    simp only [hany, Bool.false_eq_true, if_false]
    rw [maskSelect_all_true paths weights hlen]

/-- Closed witness for C4 at the spec's own example: scores [1,1,1] with
threshold 4 trigger the fallback and yield the mean of all three paths. -/
theorem c4_threshold_fallback_witness :
    threshold_fallback_warning [1, 1, 1] 4 = true ∧
    calculate_threshold_weighted_forecast [[10,10],[20,20],[30,30]] [1,1,1] 4 =
      [20, 20] := by
  have h := c4_threshold_fallback [[10,10],[20,20],[30,30]] [1,1,1] 4 2
    (by rfl)
    (by
      intro r hr
      simp only [List.mem_cons, List.not_mem_nil, or_false] at hr
      rcases hr with rfl | rfl | rfl <;> rfl)
    (by simp)
    (by
      intro w hw
      simp only [List.mem_cons, List.not_mem_nil, or_false] at hw
      rcases hw with rfl | rfl | rfl <;> norm_num)
  refine ⟨h.1, ?_⟩
  rw [h.2.1, h.2.2]
  norm_num [List.range_succ]

/-! ## C9 : which thresholds the two output fields use -/

/-- Counterexample for C9 as stated: the `threshold_weighted_forecast` field
written by `main` is NOT computed with the policy threshold 4 — `main` passes
the literal threshold 2 (main.py line 148), and on paths [[10],[20],[30]]
with scores [2,3,9] the two thresholds give different results. -/
theorem c9_counterexample :
    (main_weighted_outputs [[10],[20],[30]] [2,3,9] 9).1 ≠
      calculate_threshold_weighted_forecast [[10],[20],[30]] [2,3,9] 4 := by
  have h1 : (main_weighted_outputs [[10],[20],[30]] [2,3,9] 9).1 = [20] := by
    norm_num [main_weighted_outputs, calculate_threshold_weighted_forecast,
      maskSelect, npAverageAxis0, List.filter_cons, List.range_succ]
  have h2 : calculate_threshold_weighted_forecast [[10],[20],[30]] [2,3,9] 4 =
      [30] := by
    norm_num [calculate_threshold_weighted_forecast,
      maskSelect, npAverageAxis0, List.filter_cons, List.range_succ]
  intro h
  rw [h1, h2] at h
  simp only [List.cons.injEq, and_true] at h
  norm_num at h

/-- Claim C9 (amended): `main` computes `threshold_weighted_forecast` with
the fixed threshold 2 and `chatgpt_weighted_forecast` with the caller's
threshold, recording it as `chatgpt_threshold`; `fix_forecasts` recomputes
`threshold_weighted_forecast` with the fixed threshold 4 and
`chatgpt_weighted_forecast` with the stored threshold (default 6).  The two
computations are independent calls on the raw paths and scores, never
combined. -/
theorem c9_field_thresholds (paths : List (List ℚ)) (probabilities : List ℚ)
    (t : ℚ) (fd : ForecastsData) (hfd : fd.simulated_paths ≠ []) :
    main_weighted_outputs paths probabilities t =
      (calculate_threshold_weighted_forecast paths probabilities 2,
       calculate_threshold_weighted_forecast paths probabilities t, t) ∧
    (recalculate_weighted_forecasts fd probabilities).threshold_weighted_forecast =
      calculate_threshold_weighted_forecast fd.simulated_paths probabilities 4 ∧
    (recalculate_weighted_forecasts fd probabilities).chatgpt_weighted_forecast =
      calculate_threshold_weighted_forecast fd.simulated_paths probabilities
        (fd.chatgpt_threshold.getD 6) ∧
    (recalculate_weighted_forecasts fd probabilities).chatgpt_threshold =
      fd.chatgpt_threshold := by
  have hemp : fd.simulated_paths.isEmpty = false := by
    simpa [List.isEmpty_iff] using hfd
  refine ⟨rfl, ?_, ?_, ?_⟩ <;>
    simp [recalculate_weighted_forecasts, hemp]

/-- Closed witness for C9's amended statement. -/
theorem c9_field_thresholds_witness :
    (recalculate_weighted_forecasts
        ⟨[[10],[20],[30]], [], [], some 9⟩ [2,3,9]).threshold_weighted_forecast =
      calculate_threshold_weighted_forecast [[10],[20],[30]] [2,3,9] 4 :=
  (c9_field_thresholds [[10],[20],[30]] [2,3,9] 9
    ⟨[[10],[20],[30]], [], [], some 9⟩ (by simp)).2.1

/-! ## C5 : the difference-order cap is overrun -/

lemma npDiff_length (s : List ℚ) : (npDiff s).length = s.length - 1 := by
  simp only [npDiff, List.length_zipWith, List.length_tail]
  omega

lemma difference_series_length (s : List ℚ) :
    (difference_series s).length = s.length - 1 := npDiff_length s

/-- Claim C5 fails on the code: with an ADF oracle that never reports
stationarity (p-value constantly 1 ≥ 0.05), the loop stops at 3 differences
with `is_stationary = false`, but the post-loop branch
(data_preparation.py line 83) then applies `difference_series` a FOURTH
time, so the returned series is differenced 4 times, not at most 3: on a
length-7 input the returned series has length 3 instead of 4.  (In the
Python source this branch in fact raises `AttributeError`, since by then
`current_data` is a numpy array, which has no `.diff` method.) -/
theorem c5_cap_overrun (xs : List ℚ) :
    prepare_stationary_data (fun _ => 1) xs =
      (difference_series (npDiff (npDiff (npDiff xs))), false, 3) ∧
    (prepare_stationary_data (fun _ => 1) [0, 1, 4, 9, 16, 25, 36]).1.length
      = 3 := by
  have hloop : ∀ ys : List ℚ, ∀ d : Nat,
      adfLoop (fun _ => 1) 3 ys d =
        (npDiff (npDiff (npDiff ys)), false, d + 3) := by
    intro ys d
    have hp : ¬((1 : ℚ) < 1/20) := by norm_num
    simp only [adfLoop, if_neg hp]
  constructor
  · unfold prepare_stationary_data
    rw [hloop xs 0]
    simp
  · have h7 : prepare_stationary_data (fun _ => 1) [0, 1, 4, 9, 16, 25, 36] =
        (difference_series (npDiff (npDiff (npDiff [0, 1, 4, 9, 16, 25, 36]))),
         false, 3) := by
      unfold prepare_stationary_data
      rw [hloop _ 0]
      simp
    rw [h7]
    simp only [difference_series_length, npDiff_length]
    rfl

/-! ## C10 : the 0.05 boundary is classified inconsistently -/

/-- Claim C10: a series whose ADF p-value is exactly 0.05 is declared
stationary by `check_stationarity` (which tests `p_value <= 0.05`) but is
treated as non-stationary by the differencing loop of
`prepare_stationary_data` (which tests `p_value < 0.05`): the loop's first
iteration applies another difference to it. -/
theorem c10_boundary_inconsistency (pval : List ℚ → ℚ) (xs : List ℚ)
    (h : pval xs = 1/20) :
    (check_stationarity pval xs).1 = true ∧
    adfLoop pval 3 xs 0 = adfLoop pval 2 (npDiff xs) 1 := by
  constructor
  · simp [check_stationarity, h]
  · have hp : ¬(pval xs < 1/20) := by
      rw [h]
      exact lt_irrefl _
    simp only [adfLoop, if_neg hp]

/-- Closed witness for C10 with a constant-0.05 ADF oracle. -/
theorem c10_boundary_inconsistency_witness :
    (check_stationarity (fun _ => 1/20) [1, 2, 3]).1 = true ∧
    adfLoop (fun _ => (1/20 : ℚ)) 3 [1, 2, 3] 0 =
      adfLoop (fun _ => (1/20 : ℚ)) 2 (npDiff [1, 2, 3]) 1 :=
  c10_boundary_inconsistency (fun _ => 1/20) [1, 2, 3] rfl

/-! ## C7 / C8 : grid-search robustness -/

lemma mem_scanOrder (p q : Nat) : (p, q) ∈ scanOrder ↔ p < 6 ∧ q < 6 := by
  simp only [scanOrder, p_range, q_range, List.mem_flatMap, List.mem_map,
    List.mem_range, Prod.mk.injEq]
  constructor
  · rintro ⟨a, ha, b, hb, rfl, rfl⟩
    exact ⟨ha, hb⟩
  · rintro ⟨hp, hq⟩
    exact ⟨p, hp, q, hq, rfl, rfl⟩

lemma foldl_gridStep_none (fit : Nat → Nat → Option ℚ)
    (l : List (Nat × Nat)) (h : ∀ pq ∈ l, fit pq.1 pq.2 = none) :
    l.foldl (gridStep fit) none = none := by
  induction l with
  | nil => rfl
  | cons e t ih =>
    have he : fit e.1 e.2 = none := h e (List.mem_cons_self e t)
    simp only [List.foldl_cons]
    rw [show gridStep fit none e = none from by simp [gridStep, he]]
    exact ih (fun pq hpq => h pq (List.mem_cons_of_mem e hpq))

/-- Claim C8: if zero grid-search candidates converge, `fit_arima` produces
no fit, returning the distinguished no-convergence result `none` (the
source's `(None, None, None)`, reported as `NoConvergenceError` by the
spec). -/
theorem c8_no_convergence (fit : Nat → Nat → Option ℚ)
    (h : ∀ p q, p < 6 → q < 6 → fit p q = none) : fit_arima fit = none := by
  apply foldl_gridStep_none
  intro pq hpq
  obtain ⟨p, q⟩ := pq
  have := (mem_scanOrder p q).mp hpq
  exact h p q this.1 this.2

/-- Closed witness for C8: the everywhere-failing oracle yields no fit. -/
theorem c8_no_convergence_witness :
    fit_arima (fun _ _ => none) = none :=
  c8_no_convergence (fun _ _ => none) (fun _ _ _ _ => rfl)

lemma gridStep_isSome (fit : Nat → Nat → Option ℚ)
    (acc : Option ((Nat × Nat × Nat) × ℚ)) (e : Nat × Nat)
    (h : acc.isSome = true) : (gridStep fit acc e).isSome = true := by
  unfold gridStep
  cases hfe : fit e.1 e.2 with
  | none => exact h
  | some aic =>
    cases acc with
    | none => rfl
    | some b => by_cases hlt : aic < b.2 <;> simp [hlt]

lemma gridStep_isSome_of_fit (fit : Nat → Nat → Option ℚ)
    (acc : Option ((Nat × Nat × Nat) × ℚ)) (e : Nat × Nat)
    (h : (fit e.1 e.2).isSome = true) : (gridStep fit acc e).isSome = true := by
  unfold gridStep
  cases hfe : fit e.1 e.2 with
  | none => rw [hfe] at h; cases h
  | some aic =>
    cases acc with
    | none => rfl
    | some b => by_cases hlt : aic < b.2 <;> simp [hlt]

lemma foldl_gridStep_isSome (fit : Nat → Nat → Option ℚ)
    (l : List (Nat × Nat)) :
    ∀ acc, (acc.isSome = true ∨ ∃ pq ∈ l, (fit pq.1 pq.2).isSome = true) →
      (l.foldl (gridStep fit) acc).isSome = true := by
  induction l with
  | nil =>
    intro acc h
    rcases h with h | ⟨pq, hpq, _⟩
    · exact h
    · cases hpq
  | cons e t ih =>
    intro acc h
    simp only [List.foldl_cons]
    apply ih
    rcases h with h | ⟨pq, hpq, hfit⟩
    · exact Or.inl (gridStep_isSome fit acc e h)
    · rcases List.mem_cons.mp hpq with rfl | hpq
      · exact Or.inl (gridStep_isSome_of_fit fit acc pq hfit)
      · exact Or.inr ⟨pq, hpq, hfit⟩

lemma foldl_gridStep_congr (fit fit' : Nat → Nat → Option ℚ)
    (l : List (Nat × Nat)) (h : ∀ pq ∈ l, fit pq.1 pq.2 = fit' pq.1 pq.2) :
    ∀ acc, l.foldl (gridStep fit) acc = l.foldl (gridStep fit') acc := by
  induction l with
  | nil => intro acc; rfl
  | cons e t ih =>
    intro acc
    simp only [List.foldl_cons]
    rw [show gridStep fit acc e = gridStep fit' acc e from by
      unfold gridStep
      rw [h e (List.mem_cons_self e t)]]
    exact ih (fun pq hpq => h pq (List.mem_cons_of_mem e hpq)) _

/-- Claim C7: the grid scans exactly the 36 candidates with p, q in [0,5];
the selection depends only on the outcomes of those candidates (so a failed
candidate is merely skipped); and no per-candidate failure can make the
whole selection fail: as soon as any one grid candidate converges, the
search produces a fit. -/
theorem c7_per_candidate_safety :
    scanOrder.length = 36 ∧
    (∀ fit fit' : Nat → Nat → Option ℚ,
      (∀ p q, p < 6 → q < 6 → fit p q = fit' p q) →
      fit_arima fit = fit_arima fit') ∧
    (∀ fit : Nat → Nat → Option ℚ, ∀ p q a, p < 6 → q < 6 →
      fit p q = some a → (fit_arima fit).isSome = true) := by
  refine ⟨rfl, ?_, ?_⟩
  · intro fit fit' h
    apply foldl_gridStep_congr
    intro pq hpq
    obtain ⟨p, q⟩ := pq
    have hm := (mem_scanOrder p q).mp hpq
    exact h p q hm.1 hm.2
  · intro fit p q a hp hq hfit
    apply foldl_gridStep_isSome
    exact Or.inr ⟨(p, q), (mem_scanOrder p q).mpr ⟨hp, hq⟩, by simp [hfit]⟩

/-- Closed witness for C7: a grid where every candidate fails except (1,1)
still produces a fit. -/
theorem c7_per_candidate_safety_witness :
    (fit_arima (fun p q =>
      if p = 1 ∧ q = 1 then some (3 : ℚ) else none)).isSome = true :=
  c7_per_candidate_safety.2.2 _ 1 1 3 (by norm_num) (by norm_num) (by simp)

/-! ## C1 : the grid search selects the strict-minimum-AIC candidate -/

/-- Invariant of the grid-search accumulator after scanning the candidates
in `scanned`: an empty accumulator means every scanned candidate failed; a
non-empty accumulator holds an order (p, 0, q) whose fit converged, whose
AIC is less than or equal to every scanned converged AIC, and which is the
earliest scanned candidate with that AIC (every strictly earlier converged
candidate has strictly larger AIC). -/
def GoodAcc (fit : Nat → Nat → Option ℚ) (scanned : List (Nat × Nat)) :
    Option ((Nat × Nat × Nat) × ℚ) → Prop
  | none => ∀ pq ∈ scanned, fit pq.1 pq.2 = none
  | some (o, a) =>
      o.2.1 = 0 ∧ fit o.1 o.2.2 = some a ∧
      (∀ pq ∈ scanned, ∀ b, fit pq.1 pq.2 = some b → a ≤ b) ∧
      ∃ pre post, scanned = pre ++ (o.1, o.2.2) :: post ∧
        ∀ pq ∈ pre, ∀ b, fit pq.1 pq.2 = some b → a < b

lemma goodAcc_step (fit : Nat → Nat → Option ℚ) (scanned : List (Nat × Nat))
    (acc : Option ((Nat × Nat × Nat) × ℚ)) (e : Nat × Nat)
    (h : GoodAcc fit scanned acc) :
    GoodAcc fit (scanned ++ [e]) (gridStep fit acc e) := by
  unfold gridStep
  cases hfe : fit e.1 e.2 with
  | none =>
    cases acc with
    | none =>
      intro pq hpq
      rcases List.mem_append.mp hpq with hp | hp
      · exact h pq hp
      · rw [List.mem_singleton.mp hp]
        exact hfe
    | some best =>
      obtain ⟨o, a⟩ := best
      obtain ⟨hd0, hfo, hmin, pre, post, hsplit, hstrict⟩ := h
      refine ⟨hd0, hfo, ?_, pre, post ++ [e], ?_, hstrict⟩
      · intro pq hpq b hb
        rcases List.mem_append.mp hpq with hp | hp
        · exact hmin pq hp b hb
        · rw [List.mem_singleton.mp hp] at hb
          rw [hfe] at hb
          cases hb
      · rw [hsplit]
        simp [List.append_assoc]
  | some aic =>
    cases acc with
    | none =>
      refine ⟨rfl, hfe, ?_, scanned, [], rfl, ?_⟩
      · intro pq hpq b hb
        rcases List.mem_append.mp hpq with hp | hp
        · rw [h pq hp] at hb
          cases hb
        · rw [List.mem_singleton.mp hp] at hb
          rw [hfe] at hb
          cases hb with
          | refl => exact le_refl _
      · intro pq hpq b hb
        rw [h pq hpq] at hb
        cases hb
    | some best =>
      obtain ⟨o, a⟩ := best
      obtain ⟨hd0, hfo, hmin, pre, post, hsplit, hstrict⟩ := h
      show GoodAcc fit (scanned ++ [e])
        (if aic < a then some ((e.1, 0, e.2), aic) else some (o, a))
      by_cases hlt : aic < a
      · rw [if_pos hlt]
        refine ⟨rfl, hfe, ?_, scanned, [], rfl, ?_⟩
        · intro pq hpq b hb
          rcases List.mem_append.mp hpq with hp | hp
          · exact le_of_lt (lt_of_lt_of_le hlt (hmin pq hp b hb))
          · rw [List.mem_singleton.mp hp] at hb
            rw [hfe] at hb
            cases hb with
            | refl => exact le_refl _
        · intro pq hpq b hb
          exact lt_of_lt_of_le hlt (hmin pq hpq b hb)
      · rw [if_neg hlt]
        refine ⟨hd0, hfo, ?_, pre, post ++ [e], ?_, hstrict⟩
        · intro pq hpq b hb
          rcases List.mem_append.mp hpq with hp | hp
          · exact hmin pq hp b hb
          · rw [List.mem_singleton.mp hp] at hb
            rw [hfe] at hb
            cases hb with
            | refl => exact le_of_not_lt hlt
        · rw [hsplit]
          simp [List.append_assoc]

lemma goodAcc_foldl (fit : Nat → Nat → Option ℚ) (l : List (Nat × Nat)) :
    ∀ (scanned : List (Nat × Nat)) (acc : Option ((Nat × Nat × Nat) × ℚ)),
      GoodAcc fit scanned acc →
      GoodAcc fit (scanned ++ l) (l.foldl (gridStep fit) acc) := by
  induction l with
  | nil =>
    intro scanned acc h
    simpa using h
  | cons e t ih =>
    intro scanned acc h
    have hstep := goodAcc_step fit scanned acc e h
    have := ih (scanned ++ [e]) (gridStep fit acc e) hstep
    simpa [List.append_assoc] using this

lemma goodAcc_fit_arima (fit : Nat → Nat → Option ℚ) :
    GoodAcc fit scanOrder (fit_arima fit) := by
  have h0 : GoodAcc fit [] none := by
    intro pq hpq
    cases hpq
  have := goodAcc_foldl fit scanOrder [] none h0
  simpa using this

/-- Claim C1: grid search scans every pair (p, q) with p, q in [0,5] and d
fixed at 0, and a selected fit is a converged candidate whose AIC is the
global minimum over all converged candidates; on an exact AIC tie the
candidate visited earliest in the scan order (p outer, q inner) wins,
because the comparison is strict less-than: every candidate scanned strictly
before the winner has strictly larger AIC. -/
theorem c1_min_aic_first_wins (fit : Nat → Nat → Option ℚ) (p d q : Nat)
    (a : ℚ) (h : fit_arima fit = some ((p, d, q), a)) :
    d = 0 ∧ p < 6 ∧ q < 6 ∧ fit p q = some a ∧
    (∀ pq : Nat × Nat, pq ∈ scanOrder → ∀ b, fit pq.1 pq.2 = some b → a ≤ b) ∧
    ∃ pre post, scanOrder = pre ++ (p, q) :: post ∧
      ∀ pq ∈ pre, ∀ b, fit pq.1 pq.2 = some b → a < b := by
  have hg := goodAcc_fit_arima fit
  rw [h] at hg
  obtain ⟨hd0, hfo, hmin, pre, post, hsplit, hstrict⟩ := hg
  have hmem : (p, q) ∈ scanOrder := by
    rw [hsplit]
    exact List.mem_append_right pre (List.mem_cons_self _ _)
  have hpq := (mem_scanOrder p q).mp hmem
  exact ⟨hd0, hpq.1, hpq.2, hfo, hmin, pre, post, hsplit, hstrict⟩

/-- Closed witness for C1: with every candidate converging at the same AIC 5,
the earliest-scanned candidate (0, 0) is selected, and 5 is a global
minimum. -/
theorem c1_min_aic_first_wins_witness :
    (0 = 0 ∧ 0 < 6 ∧ 0 < 6 ∧ (fun _ _ => some (5 : ℚ)) 0 0 = some 5 ∧
      (∀ pq : Nat × Nat, pq ∈ scanOrder → ∀ b,
        (fun _ _ => some (5 : ℚ)) pq.1 pq.2 = some b → (5 : ℚ) ≤ b) ∧
      ∃ pre post, scanOrder = pre ++ (0, 0) :: post ∧
        ∀ pq ∈ pre, ∀ b,
          (fun _ _ => some (5 : ℚ)) pq.1 pq.2 = some b → (5 : ℚ) < b) :=
  c1_min_aic_first_wins (fun _ _ => some (5 : ℚ)) 0 0 0 5 (by
    norm_num [fit_arima, scanOrder, p_range, q_range, List.range_succ, gridStep])

/-! ## C6 : forecast dates are the next business days -/

lemma nextBDay_gt (d : Int) : d < nextBDay d := by
  simp only [nextBDay, weekday]
  split <;> [omega; (split <;> omega)]

lemma weekday_nextBDay_lt (d : Int) : weekday (nextBDay d) < 5 := by
  simp only [nextBDay, weekday]
  split <;> [omega; (split <;> omega)]

lemma nextBDay_least (d b : Int) (hdb : d < b) (hwb : weekday b < 5) :
    nextBDay d ≤ b := by
  simp only [weekday] at hwb
  simp only [nextBDay, weekday]
  split <;> [omega; (split <;> omega)]

lemma iterate_nextBDay_ge (n : Nat) : ∀ d : Int, d + n ≤ nextBDay^[n] d := by
  induction n with
  | zero => intro d; simp
  | succ n ih =>
    intro d
    rw [Function.iterate_succ_apply]
    have h1 := nextBDay_gt d
    have h2 := ih (nextBDay d)
    push_cast at h2 ⊢
    omega

lemma skipHol_not_mem (holidays : List Int) (d : Int) :
    skipHol holidays d ∉ holidays := by
  induction d using skipHol.induct holidays with
  | case1 d hmem ih =>
    rw [skipHol, if_pos hmem]
    exact ih
  | case2 d hmem =>
    rw [skipHol, if_neg hmem]
    exact hmem

lemma le_skipHol (holidays : List Int) : ∀ d : Int, d ≤ skipHol holidays d := by
  intro d
  induction d using skipHol.induct holidays with
  | case1 d hmem ih =>
    rw [skipHol, if_pos hmem]
    exact le_trans (le_of_lt (nextBDay_gt d)) ih
  | case2 d hmem =>
    rw [skipHol, if_neg hmem]

lemma weekday_skipHol (holidays : List Int) :
    ∀ d : Int, weekday d < 5 → weekday (skipHol holidays d) < 5 := by
  intro d
  induction d using skipHol.induct holidays with
  | case1 d hmem ih =>
    intro _
    rw [skipHol, if_pos hmem]
    exact ih (weekday_nextBDay_lt d)
  | case2 d hmem =>
    intro hd
    rw [skipHol, if_neg hmem]
    exact hd

lemma skipHol_le (holidays : List Int) (b : Int) (hwb : weekday b < 5)
    (hb : b ∉ holidays) : ∀ d : Int, d ≤ b → skipHol holidays d ≤ b := by
  intro d
  induction d using skipHol.induct holidays with
  | case1 d hmem ih =>
    intro hdb
    rw [skipHol, if_pos hmem]
    have hne : d ≠ b := fun he => hb (he ▸ hmem)
    exact ih (nextBDay_least d b (lt_of_le_of_ne hdb hne) hwb)
  | case2 d hmem =>
    intro hdb
    rw [skipHol, if_neg hmem]
    exact hdb

lemma genDates_length (holidays : List Int) :
    ∀ (n : Nat) (d : Int), (genDates holidays n d).length = n := by
  intro n
  induction n with
  | zero => intro d; rfl
  | succ n ih => intro d; simp [genDates, ih]

lemma genDates_chain (holidays : List Int) :
    ∀ (n : Nat) (d : Int),
      List.Chain' (fun a b => a < b) (d :: genDates holidays n d) := by
  intro n
  induction n with
  | zero => intro d; simp [genDates]
  | succ n ih =>
    intro d
    have he : d < skipHol holidays (nextBDay d) :=
      lt_of_lt_of_le (nextBDay_gt d) (le_skipHol holidays (nextBDay d))
    simp only [genDates]
    exact List.chain'_cons.mpr ⟨he, ih _⟩

lemma genDates_mem (holidays : List Int) :
    ∀ (n : Nat) (d : Int), ∀ x ∈ genDates holidays n d,
      d < x ∧ weekday x < 5 ∧ x ∉ holidays := by
  intro n
  induction n with
  | zero =>
    intro d x hx
    simp [genDates] at hx
  | succ n ih =>
    intro d x hx
    simp only [genDates, List.mem_cons] at hx
    rcases hx with rfl | hx
    · exact ⟨lt_of_lt_of_le (nextBDay_gt d) (le_skipHol _ _),
        weekday_skipHol _ _ (weekday_nextBDay_lt d), skipHol_not_mem _ _⟩
    · obtain ⟨h1, h2, h3⟩ := ih _ x hx
      have hde : d < skipHol holidays (nextBDay d) :=
        lt_of_lt_of_le (nextBDay_gt d) (le_skipHol _ _)
      exact ⟨lt_trans hde h1, h2, h3⟩

lemma genDates_complete (holidays : List Int) :
    ∀ (n : Nat) (d b : Int), d < b → weekday b < 5 → b ∉ holidays →
      b ∈ genDates holidays n d ∨ ∀ x ∈ genDates holidays n d, x < b := by
  intro n
  induction n with
  | zero =>
    intro d b _ _ _
    right
    intro x hx
    simp [genDates] at hx
  | succ n ih =>
    intro d b hdb hwb hb
    have hnb : nextBDay d ≤ b := nextBDay_least d b hdb hwb
    have heb : skipHol holidays (nextBDay d) ≤ b :=
      skipHol_le holidays b hwb hb (nextBDay d) hnb
    simp only [genDates]
    rcases eq_or_lt_of_le heb with he | he
    · left
      rw [← he]
      exact List.mem_cons_self _ _
    · rcases ih _ b he hwb hb with hmem | hall
      · exact Or.inl (List.mem_cons_of_mem _ hmem)
      · refine Or.inr ?_
        intro x hx
        rcases List.mem_cons.mp hx with rfl | hx
        · exact he
        · exact hall x hx

lemma holidayWindow_sub (holidays : List Int) (lastDate : Int) (steps : Nat) :
    ∀ x ∈ holidayWindow holidays lastDate steps, x ∈ holidays := by
  intro x hx
  exact (List.mem_filter.mp hx).1

lemma mem_holidayWindow (holidays : List Int) (lastDate : Int) (steps : Nat)
    (x : Int) (hx : x ∈ holidays) (h1 : lastDate ≤ x)
    (h2 : x ≤ nextBDay^[steps + 10] lastDate) :
    x ∈ holidayWindow holidays lastDate steps := by
  apply List.mem_filter.mpr
  refine ⟨hx, ?_⟩
  simp only [Bool.and_eq_true, decide_eq_true_eq]
  exact ⟨h1, h2⟩

/-- Claim C6: the forecast dates are exactly the next `steps` business days
after the anchor date, in strictly increasing order: there are `steps` of
them, each is after the anchor, none is a Saturday or Sunday, none is a
holiday of the windowed calendar the code builds, and every non-holiday
weekday after the anchor is either one of the dates or later than all of
them; in particular a one-step forecast anchored on a Friday lands on the
following Monday, or on Tuesday when that Monday is a holiday. -/
theorem c6_business_day_dates (holidays : List Int) (steps : Nat)
    (lastDate : Int) :
    (forecast_dates holidays steps lastDate).length = steps ∧
    List.Chain' (fun a b => a < b)
      (lastDate :: forecast_dates holidays steps lastDate) ∧
    (∀ x ∈ forecast_dates holidays steps lastDate,
      lastDate < x ∧ weekday x < 5 ∧
        x ∉ holidayWindow holidays lastDate steps) ∧
    (∀ b, lastDate < b → weekday b < 5 →
      b ∉ holidayWindow holidays lastDate steps →
      b ∈ forecast_dates holidays steps lastDate ∨
        ∀ x ∈ forecast_dates holidays steps lastDate, x < b) ∧
    (weekday lastDate = 4 → lastDate + 3 ∉ holidays →
      forecast_dates holidays 1 lastDate = [lastDate + 3]) ∧
    (weekday lastDate = 4 → lastDate + 3 ∈ holidays →
      lastDate + 4 ∉ holidays →
      forecast_dates holidays 1 lastDate = [lastDate + 4]) := by
  refine ⟨genDates_length _ steps lastDate, genDates_chain _ steps lastDate,
    genDates_mem _ steps lastDate,
    fun b h1 h2 h3 => genDates_complete _ steps lastDate b h1 h2 h3,
    ?_, ?_⟩
  · intro h4 hmon
    have hnb : nextBDay lastDate = lastDate + 3 := by
      rw [nextBDay, if_pos h4]
    have hnm : lastDate + 3 ∉ holidayWindow holidays lastDate 1 :=
      fun hm => hmon (holidayWindow_sub _ _ _ _ hm)
    show genDates (holidayWindow holidays lastDate 1) 1 lastDate =
      [lastDate + 3]
    simp only [genDates]
    rw [hnb, skipHol, if_neg hnm]
  · intro h4 hmon htue
    have hnb : nextBDay lastDate = lastDate + 3 := by
      rw [nextBDay, if_pos h4]
    have hmem : lastDate + 3 ∈ holidayWindow holidays lastDate 1 := by
      refine mem_holidayWindow _ _ _ _ hmon (by omega) ?_
      have h11 : (1 + 10 : Nat) = 11 := rfl
      rw [h11]
      have := iterate_nextBDay_ge 11 lastDate
      push_cast at this
      omega
    have hnb2 : nextBDay (lastDate + 3) = lastDate + 4 := by
      simp only [weekday] at h4
      have hc1 : weekday (lastDate + 3) ≠ 4 := by
        simp only [weekday]
        omega
      have hc2 : weekday (lastDate + 3) ≠ 5 := by
        simp only [weekday]
        omega
      rw [nextBDay, if_neg hc1, if_neg hc2]
      omega
    have htue2 : lastDate + 4 ∉ holidayWindow holidays lastDate 1 :=
      fun hm => htue (holidayWindow_sub _ _ _ _ hm)
    show genDates (holidayWindow holidays lastDate 1) 1 lastDate =
      [lastDate + 4]
    simp only [genDates]
    rw [hnb, skipHol, if_pos hmem, hnb2, skipHol, if_neg htue2]

/-- Closed witness for C6: anchored on day 4 (a Friday), one step lands on
day 7 (Monday) with no holidays, and on day 8 (Tuesday) when day 7 is a
holiday. -/
theorem c6_business_day_dates_witness :
    forecast_dates [] 1 4 = [7] ∧ forecast_dates [7] 1 4 = [8] :=
  ⟨(c6_business_day_dates [] 1 4).2.2.2.2.1 (by decide) (by simp),
   (c6_business_day_dates [7] 1 4).2.2.2.2.2 (by decide) (by simp) (by simp)⟩
